import Mathlib

/-!
Verification of the `independ` dependency-resolution server.

The Go source is shallowly embedded:

* Go maps are embedded as association lists (`List (κ × α)`) with the
  lookup / insert / increment helpers below; a theorem quantifying over the
  association list quantifies in particular over every iteration order of
  the original map.
* `time.Time` / `time.Duration` values are embedded as `Int` nanosecond
  counts (Go's `time.Duration` is an `int64` nanosecond count).
* The external Masterminds `semver/v3` library is modelled for the fragment
  the program exercises: dotted `major.minor.patch` version strings and
  single-comparator range constraints; precedence is lexicographic on the
  numeric triple.
* Database and network effects are embedded as explicit function
  parameters (`fetch` for the package pool, `vulnDb` for the vulnerability
  table); a call that can fail returns `Except String`.
* The recursive resolver `GatherDependencies` takes an explicit fuel
  argument, since the Go recursion has no cycle guard and need not
  terminate; every fuel value corresponds to a prefix of the Go execution,
  and for an acyclic registry a large enough fuel reproduces it exactly.
-/

/-- Association-list lookup: Go's `value, ok := m[key]` (first binding wins;
the lists built by the embedded code never hold a key twice). -/
def lookupMap {κ α : Type} [DecidableEq κ] : List (κ × α) → κ → Option α
  | [], _ => none
  | (k2, v) :: rest, k => if k2 = k then some v else lookupMap rest k

/-- Association-list update of an existing key: Go's `m[key] = value` when
`key` is already present (the first binding is replaced). -/
def updateMap {κ α : Type} [DecidableEq κ] : List (κ × α) → κ → α → List (κ × α)
  | [], k, v => [(k, v)]
  | (k2, v2) :: rest, k, v =>
    if k2 = k then (k2, v) :: rest else (k2, v2) :: updateMap rest k v

/-- Go's `m[key]++` on a `map[string]int`: a missing key counts as zero. -/
def incMap {κ : Type} [DecidableEq κ] : List (κ × Int) → κ → List (κ × Int)
  | [], k => [(k, 1)]
  | (k2, v) :: rest, k =>
    if k2 = k then (k2, v + 1) :: rest else (k2, v) :: incMap rest k

/-! ## Semver model (external Masterminds semver/v3 library)

Modelled fragment: versions are dotted numeric triples `X.Y.Z`; constraints
are a single comparator (`<`, `<=`, `>`, `>=`, `=` or none, meaning exact)
followed by a version.  Precedence is lexicographic on `(major, minor,
patch)`. -/

structure Semver where
  major : Nat
  minor : Nat
  patch : Nat
deriving DecidableEq, Repr

/-- Strict semantic-version precedence. -/
def Semver.lt (a b : Semver) : Bool :=
  a.major < b.major ||
    (a.major = b.major &&
      (a.minor < b.minor || (a.minor = b.minor && a.patch < b.patch)))

/-- `semver.Version.GreaterThan`. -/
def Semver.greaterThan (a b : Semver) : Bool := Semver.lt b a

/-- Parse a decimal numeral (list of chars), rejecting the empty string and
non-digits. -/
def parseNatChars : List Char → Option Nat
  | [] => none
  | cs =>
    if cs.all Char.isDigit then
      some (cs.foldl (fun acc c => acc * 10 + (c.toNat - 48)) 0)
    else none

/-- Split a character list at the dots. -/
def splitOnDot : List Char → List (List Char)
  | [] => [[]]
  | c :: rest =>
    let groups := splitOnDot rest
    if c = '.' then [] :: groups
    else
      match groups with
      | [] => [[c]]
      | g :: gs => (c :: g) :: gs

/-- `semver.NewVersion` on the modelled fragment: parse `X.Y.Z`. -/
def semverNewVersion (s : String) : Option Semver :=
  match splitOnDot s.data with
  | [a, b, c] =>
    match parseNatChars a, parseNatChars b, parseNatChars c with
    | some x, some y, some z => some ⟨x, y, z⟩
    | _, _, _ => none
  | _ => none

inductive CompareOp
  | ceq
  | clt
  | cle
  | cgt
  | cge
deriving DecidableEq, Repr

/-- `semver.Constraints` on the modelled fragment: one comparator and one
version. -/
structure Constraints where
  op : CompareOp
  ver : Semver
deriving DecidableEq, Repr

/-- `semver.NewConstraint` on the modelled fragment. -/
def semverNewConstraint (s : String) : Option Constraints :=
  match s.data with
  | '<' :: '=' :: rest => (semverNewVersion (String.mk rest)).map (⟨CompareOp.cle, ·⟩)
  | '>' :: '=' :: rest => (semverNewVersion (String.mk rest)).map (⟨CompareOp.cge, ·⟩)
  | '<' :: rest => (semverNewVersion (String.mk rest)).map (⟨CompareOp.clt, ·⟩)
  | '>' :: rest => (semverNewVersion (String.mk rest)).map (⟨CompareOp.cgt, ·⟩)
  | '=' :: rest => (semverNewVersion (String.mk rest)).map (⟨CompareOp.ceq, ·⟩)
  | rest => (semverNewVersion (String.mk rest)).map (⟨CompareOp.ceq, ·⟩)

/-- `Constraints.Check` / `Constraints.Validate` (same boolean). -/
def Constraints.check (c : Constraints) (v : Semver) : Bool :=
  match c.op with
  | CompareOp.ceq => v = c.ver
  | CompareOp.clt => Semver.lt v c.ver
  | CompareOp.cle => Semver.lt v c.ver || v = c.ver
  | CompareOp.cgt => Semver.lt c.ver v
  | CompareOp.cge => Semver.lt c.ver v || v = c.ver

/-! ## Data model (src/unnamed/part_001, src/unnamed/part_003)

Everything below lives in namespace `Independ`; structure fields use the
JSON-tag spelling of the Go fields. -/

namespace Independ

structure Dist where
  fileCount : Int
  unpackedSize : Int
deriving DecidableEq, Repr

structure DistTags where
  latest : String
deriving DecidableEq, Repr

structure NpmUser where
  name : String
  email : String
deriving DecidableEq, Repr

structure VersionInfo where
  name : String
  version : String
  description : String
  dependencies : List (String × String)
  devDependencies : List (String × String)
  npmUser : NpmUser
  dist : Dist
  os : List String
  cpu : List String
deriving DecidableEq, Repr

/-- The Go zero value of `VersionInfo` (what `p.Versions[missing]` yields). -/
def emptyVersionInfo : VersionInfo :=
  { name := "", version := "", description := "", dependencies := [],
    devDependencies := [], npmUser := ⟨"", ""⟩, dist := ⟨0, 0⟩, os := [], cpu := [] }

/-- `VersionInfo.GetPublisher`. -/
def VersionInfo.GetPublisher (v : VersionInfo) : String :=
  if v.npmUser.name ≠ "" then
    if v.npmUser.email ≠ "" then
      v.npmUser.name ++ " ( " ++ v.npmUser.email ++ " )"
    else v.npmUser.name
  else if v.npmUser.email ≠ "" then v.npmUser.email
  else ""

structure PackageInfo where
  name : String
  distTags : DistTags
  versions : List (String × VersionInfo)
  time : List (String × Int)
deriving DecidableEq, Repr

/-- `PackageInfo.LatestVersion` (a missing dist-tag yields the zero value). -/
def PackageInfo.LatestVersion (p : PackageInfo) : VersionInfo :=
  (lookupMap p.versions p.distTags.latest).getD emptyVersionInfo

structure SemverSpec where
  vulnerable : List String
deriving DecidableEq, Repr

structure Vulnerability where
  id : String
  packageManager : String
  packageName : String
  title : String
  publicationTime : Int
  semver : SemverSpec
  severity : String
deriving DecidableEq, Repr

structure VulnerabilityStats where
  lowCount : Int
  mediumCount : Int
  highCount : Int
  criticalCount : Int
deriving DecidableEq, Repr

structure Stats where
  packages : Int
  versions : Int
  files : Int
  diskSpace : Int
  vulnerabilityStats : VulnerabilityStats
deriving DecidableEq, Repr

structure Version where
  info : VersionInfo
  time : Int
  dependencies : List (String × List String)
  publishers : List (String × Int)
  vulnerabilities : List Vulnerability
  stats : Stats
  errors : List String
deriving DecidableEq, Repr

/-- `NewVersion` (src/unnamed/part_001 lines 145-164). -/
def NewVersion (versionInfo : VersionInfo) (time : Int) : Version :=
  { info := versionInfo
    time := time
    dependencies := []
    publishers :=
      if versionInfo.GetPublisher ≠ "" then [(versionInfo.GetPublisher, 1)] else []
    vulnerabilities := []
    stats :=
      { packages := 1, versions := 1, files := versionInfo.dist.fileCount,
        diskSpace := versionInfo.dist.unpackedSize,
        vulnerabilityStats := ⟨0, 0, 0, 0⟩ }
    errors := [] }

/-- `PackageInfo.MaxVersion` fold step over the `Versions` map: skip
unparseable version strings, keep the greatest version satisfying the
constraint (strict `GreaterThan` replaces, so the first maximal entry in
iteration order wins). -/
def maxStep (constraint : Constraints) (acc : Option (Semver × VersionInfo))
    (pair : String × VersionInfo) : Option (Semver × VersionInfo) :=
  match semverNewVersion pair.1 with
  | none => acc
  | some version =>
    if constraint.check version then
      match acc with
      | none => some (version, pair.2)
      | some (maxVersion, maxVersionInfo) =>
        if version.greaterThan maxVersion then some (version, pair.2)
        else some (maxVersion, maxVersionInfo)
    else acc

/-- `PackageInfo.MaxVersion` (src/unnamed/part_001 lines 93-117). -/
def PackageInfo.MaxVersion (p : PackageInfo) (constraintRaw : String) :
    Except String VersionInfo :=
  match semverNewConstraint constraintRaw with
  | none => Except.error ("improper constraint: " ++ constraintRaw)
  | some constraint =>
    match p.versions.foldl (maxStep constraint) none with
    | none =>
      Except.error ("no matching version found in " ++ p.name ++ " constraint " ++ constraintRaw)
    | some (_, maxVersionInfo) => Except.ok maxVersionInfo

/-- `HasMatchingVersion` (src/unnamed/part_001 lines 166-180). -/
def HasMatchingVersion (versions : List String) (constraint : Constraints) : Bool :=
  versions.any fun vRaw =>
    match semverNewVersion vRaw with
    | none => false
    | some v => constraint.check v

/-- `strArrContain`. -/
def strArrContain (array : List String) (s : String) : Bool :=
  array.any (· = s)

/-- `VersionInfo.MatchPlatform` (src/unnamed/part_001 lines 301-313). -/
def VersionInfo.MatchPlatform (p : VersionInfo) (os cpu : String) : Bool :=
  if p.os.length > 0 && !strArrContain p.os os then false
  else if p.cpu.length > 0 && !strArrContain p.cpu cpu then false
  else true

/-! ## The resolver (src/unnamed/part_001 lines 228-332)

`VersionInfo.GatherDependencies` mutates its `parent *Version` in Go; here
the `Version` is threaded as explicit state.  The package pool
(`packagePool.ProcessKey(name)` followed by `future.Await()`) is embedded
as the function parameter `fetch : String → Except String PackageInfo`:
within one resolution the pool returns the same result for the same name
(pool.go keeps the resolved future in its `futureMap`).  The fan-out /
fan-in over futures reduces, for a pure `fetch`, to processing the
dependency list in order (regular dependencies first, then, when `alsoDev`
is set, the dev dependencies). -/

/-- The `gather == true` block of the await loop (src/unnamed/part_001
lines 280-285): merge the child's publisher and distribution stats into the
parent, just before recursing into the child. -/
def gatherMerge (parent : Version) (childVersion : VersionInfo) : Version :=
  { parent with
    publishers := incMap parent.publishers childVersion.GetPublisher
    stats :=
      { parent.stats with
        versions := parent.stats.versions + 1
        files := parent.stats.files + childVersion.dist.fileCount
        diskSpace := parent.stats.diskSpace + childVersion.dist.unpackedSize } }

/-- One iteration of the await loop of `VersionInfo.GatherDependencies`
(src/unnamed/part_001 lines 245-287) for the edge `(name, constraintRaw)`.
`recur` stands for the recursive call
`childVersion.GatherDependencies(parent, false)` run after the stats merge. -/
def gatherOne (recur : Version → VersionInfo → Version)
    (fetch : String → Except String PackageInfo)
    (parent : Version) (name constraintRaw : String) : Version :=
  match fetch name with
  | Except.error e =>
    { parent with errors := parent.errors ++ ["could not get " ++ name ++ ": " ++ e] }
  | Except.ok packageInfo =>
    match semverNewConstraint constraintRaw with
    | none =>
      { parent with errors := parent.errors ++
          ["invalid constraint for " ++ name ++ " constraint " ++ constraintRaw] }
    | some constraint =>
      match packageInfo.MaxVersion constraintRaw with
      | Except.error e =>
        { parent with errors := parent.errors ++
            ["no matching version for " ++ name ++ " constraint " ++ constraintRaw ++ ": " ++ e] }
      | Except.ok childVersion =>
        if !childVersion.MatchPlatform "linux" "x64" then parent
        else
          match lookupMap parent.dependencies name with
          | some versions =>
            if !HasMatchingVersion versions constraint then
              recur
                { parent with
                  dependencies :=
                    updateMap parent.dependencies name (versions ++ [childVersion.version]) }
                childVersion
            else parent
          | none =>
            recur
              { parent with
                dependencies := parent.dependencies ++ [(name, [childVersion.version])]
                stats := { parent.stats with packages := parent.stats.packages + 1 } }
              childVersion

/-- `VersionInfo.GatherDependencies` (src/unnamed/part_001 lines 228-290),
with fuel bounding the recursion depth (the Go code has no cycle guard). -/
def VersionInfo.GatherDependencies
    (fetch : String → Except String PackageInfo) :
    Nat → VersionInfo → Bool → Version → Version
  | 0, _, _, parent => parent
  | fuel + 1, p, alsoDev, parent =>
    (p.dependencies ++ (if alsoDev then p.devDependencies else [])).foldl
      (fun par nc =>
        gatherOne
          (fun par2 child =>
            VersionInfo.GatherDependencies fetch fuel child false (gatherMerge par2 child))
          fetch par nc.1 nc.2)
      parent

/-- Does the vulnerability match one of the installed versions?  The inner
double loop of `Version.GatherVulnerabilities` (src/unnamed/part_001 lines
201-217): malformed installed versions and malformed range expressions are
skipped, any surviving check that passes sets `match`. -/
def vulnerabilityMatches (vulnerability : Vulnerability) (depVersions : List String) : Bool :=
  depVersions.any fun depVersion =>
    match semverNewVersion depVersion with
    | none => false
    | some depV =>
      vulnerability.semver.vulnerable.any fun expr =>
        match semverNewConstraint expr with
        | none => false
        | some c => c.check depV

/-- The installed versions considered for a vulnerability: the root's own
version when the names coincide, otherwise the dependency's recorded list
(absent name: the empty list, Go's nil). -/
def installedVersions (v : Version) (vulnerability : Vulnerability) : List String :=
  if vulnerability.packageName = v.info.name then [v.info.version]
  else (lookupMap v.dependencies vulnerability.packageName).getD []

/-- The loop body of `GetVulnerabilityStats`: the if/else-if chain on the
severity string. -/
def vulnStatsStep (stats : VulnerabilityStats) (vulnerability : Vulnerability) :
    VulnerabilityStats :=
  let severity := vulnerability.severity
  if severity = "low" then { stats with lowCount := stats.lowCount + 1 }
  else if severity = "medium" then { stats with mediumCount := stats.mediumCount + 1 }
  else if severity = "high" then { stats with highCount := stats.highCount + 1 }
  else if severity = "critical" then { stats with criticalCount := stats.criticalCount + 1 }
  else stats

/-- `GetVulnerabilityStats` (src/unnamed/part_003 lines 63-78). -/
def GetVulnerabilityStats (vulnerabilities : List Vulnerability) : VulnerabilityStats :=
  vulnerabilities.foldl vulnStatsStep ⟨0, 0, 0, 0⟩

/-- `Version.GatherVulnerabilities` (src/unnamed/part_001 lines 182-226).
`vulnDb` embeds `DbGetVulnerabilitiesForPackages`. -/
def Version.GatherVulnerabilities
    (vulnDb : List String → Except String (List Vulnerability)) (v : Version) :
    Except String Version :=
  match vulnDb (v.info.name :: v.dependencies.map Prod.fst) with
  | Except.error e =>
    Except.error ("could not get vulnerabilities for package " ++ v.info.name ++ ": " ++ e)
  | Except.ok allVulnerabilities =>
    let vulnerabilities :=
      allVulnerabilities.filter fun vulnerability =>
        vulnerabilityMatches vulnerability (installedVersions v vulnerability)
    Except.ok
      { v with
        vulnerabilities := vulnerabilities
        stats := { v.stats with vulnerabilityStats := GetVulnerabilityStats vulnerabilities } }

/-- The root-version resolution at the head of `PackageInfo.GatherDependencies`
(src/unnamed/part_001 lines 316-325): an explicit version must exist in the
`Versions` map; an empty version string means the `latest` dist-tag (which,
as in Go, never fails — a dangling tag yields the zero `VersionInfo`). -/
def PackageInfo.resolveRootVersion (p : PackageInfo) (versionRaw : String) :
    Except String VersionInfo :=
  if versionRaw ≠ "" then
    match lookupMap p.versions versionRaw with
    | some vi => Except.ok vi
    | none =>
      Except.error ("could not find version " ++ versionRaw ++ " in " ++ p.name)
  else Except.ok p.LatestVersion

/-- `PackageInfo.GatherDependencies` (src/unnamed/part_001 lines 315-332):
resolve the root version, gather the tree, correlate vulnerabilities. -/
def PackageInfo.GatherDependencies
    (fetch : String → Except String PackageInfo)
    (vulnDb : List String → Except String (List Vulnerability))
    (fuel : Nat) (p : PackageInfo) (versionRaw : String) : Except String Version :=
  match p.resolveRootVersion versionRaw with
  | Except.error e => Except.error e
  | Except.ok versionInfo =>
    let parent := NewVersion versionInfo ((lookupMap p.time versionInfo.version).getD 0)
    let parent := VersionInfo.GatherDependencies fetch fuel versionInfo false parent
    match parent.GatherVulnerabilities vulnDb with
    | Except.error e =>
      Except.error ("could not gather vulns for " ++ p.name ++ " version " ++ versionRaw ++ ": " ++ e)
    | Except.ok parent => Except.ok parent

/-- `calcExpire` (src/unnamed/part_001 lines 334-344), on nanosecond counts;
returned is the absolute expiry instant `now + expire`.  Go's `/` on the
int64 `time.Duration` truncates toward zero, and `expire.Hours() < 1`
(resp. `> 24`) agrees with the integer comparison against one hour (resp.
24 hours) of nanoseconds. -/
def nsPerHour : Int := 3600 * 1000000000

def calcExpire (now lastUpdate : Int) : Int :=
  let age := now - lastUpdate
  let expire := Int.tdiv age 100
  let expire :=
    if expire < nsPerHour then nsPerHour
    else if expire > 24 * nsPerHour then 24 * nsPerHour
    else expire
  now + expire

/-! ## The dedup pool (src/server/pool.go)

The pool is concurrent; it is embedded as a transition system whose atomic
steps are the mutex-protected critical sections of pool.go, so that a list
of events covers every interleaving of callers and workers:

* `processKey key` is `SmartWorkPool.ProcessKey` on a key missing from the
  performer's cache (the situation of the concurrency claim): the atomic
  `futureMap.getOrCreate` plus, when `isNew` holds, the send on
  `workQueue`.  Futures are identified by the order of their creation
  (`nextId`); the id handed to the caller is appended to `processLog`, and
  an `isNew` creation is logged in `enqueueLog`.
* `workerStep` is one round of `SmartWorkPool.work`: receive a key from
  the channel (Go channels are FIFO), run `performer.Perform` — embedded as
  the pure `pf : String → R` — and `futureMap.finish`, which resolves the
  future registered for the key.  The `performLog` records each `Perform`
  invocation.

Nothing ever deletes a `futureMap` entry (the `TODO remove from futureMap`
in pool.go is not implemented), which is exactly what makes the dedup
guarantee hold across the whole trace. -/

inductive PoolEvent
  | processKey (key : String)
  | workerStep
deriving DecidableEq, Repr

structure PoolState (R : Type) where
  futures : List (String × Nat)
  nextId : Nat
  queue : List String
  resolved : List (Nat × R)
  processLog : List (String × Nat)
  enqueueLog : List String
  performLog : List String

/-- The pool as created by `NewSmartWorkPool`: empty future map, empty
queue. -/
def initPoolState {R : Type} : PoolState R :=
  { futures := [], nextId := 0, queue := [], resolved := [],
    processLog := [], enqueueLog := [], performLog := [] }

def poolStep {R : Type} (pf : String → R) (s : PoolState R) : PoolEvent → PoolState R
  | PoolEvent.processKey key =>
    match lookupMap s.futures key with
    | some fid => { s with processLog := s.processLog ++ [(key, fid)] }
    | none =>
      { s with
        futures := s.futures ++ [(key, s.nextId)]
        nextId := s.nextId + 1
        queue := s.queue ++ [key]
        enqueueLog := s.enqueueLog ++ [key]
        processLog := s.processLog ++ [(key, s.nextId)] }
  | PoolEvent.workerStep =>
    match s.queue with
    | [] => s
    | key :: rest =>
      { s with
        queue := rest
        performLog := s.performLog ++ [key]
        resolved :=
          updateMap s.resolved ((lookupMap s.futures key).getD 0) (pf key) }

def runPool {R : Type} (pf : String → R) (events : List PoolEvent) : PoolState R :=
  events.foldl (poolStep pf) initPoolState

/-! ## Helper lemmas: association lists -/

theorem lookupMap_eq_none {κ α : Type} [DecidableEq κ] (m : List (κ × α)) (k : κ) :
    lookupMap m k = none ↔ k ∉ m.map Prod.fst := by
  induction m with
  | nil => simp [lookupMap]
  | cons pr rest ih =>
    obtain ⟨k2, v⟩ := pr
    by_cases h : k2 = k
    · subst h
      simp [lookupMap]
    · simp only [lookupMap, h, if_false, List.map_cons, List.mem_cons, ih]
      constructor
      · intro hn hor
        rcases hor with he | hm
        · exact h he.symm
        · exact hn hm
      · intro hn hm
        exact hn (Or.inr hm)

theorem lookupMap_append_left {κ α : Type} [DecidableEq κ] (m l : List (κ × α)) (k : κ) (v : α)
    (h : lookupMap m k = some v) : lookupMap (m ++ l) k = some v := by
  induction m with
  | nil => simp [lookupMap] at h
  | cons pr rest ih =>
    obtain ⟨k2, v2⟩ := pr
    by_cases hk : k2 = k <;> simp_all [lookupMap, hk]

theorem lookupMap_append_right {κ α : Type} [DecidableEq κ] (m l : List (κ × α)) (k : κ)
    (h : lookupMap m k = none) : lookupMap (m ++ l) k = lookupMap l k := by
  induction m with
  | nil => simp
  | cons pr rest ih =>
    obtain ⟨k2, v2⟩ := pr
    by_cases hk : k2 = k <;> simp_all [lookupMap, hk]

theorem lookupMap_updateMap_self {κ α : Type} [DecidableEq κ] (m : List (κ × α)) (k : κ) (v : α) :
    lookupMap (updateMap m k v) k = some v := by
  induction m with
  | nil => simp [lookupMap, updateMap]
  | cons pr rest ih =>
    obtain ⟨k2, v2⟩ := pr
    by_cases hk : k2 = k <;> simp [lookupMap, updateMap, hk, ih]

theorem lookupMap_updateMap_other {κ α : Type} [DecidableEq κ] (m : List (κ × α)) (k k2 : κ)
    (v : α) (h : k2 ≠ k) : lookupMap (updateMap m k v) k2 = lookupMap m k2 := by
  induction m with
  | nil =>
    simp only [updateMap, lookupMap]
    rw [if_neg fun hh => h hh.symm]
  | cons pr rest ih =>
    obtain ⟨k3, v3⟩ := pr
    simp only [updateMap]
    by_cases hk : k3 = k
    · subst hk
      rw [if_pos rfl]
      simp only [lookupMap]
      rw [if_neg fun hh => h hh.symm, if_neg fun hh => h hh.symm]
    · rw [if_neg hk]
      simp only [lookupMap]
      by_cases hq : k3 = k2
      · rw [if_pos hq, if_pos hq]
      · rw [if_neg hq, if_neg hq, ih]

theorem updateMap_keys_of_mem {κ α : Type} [DecidableEq κ] (m : List (κ × α)) (k : κ) (v v0 : α)
    (h : lookupMap m k = some v0) :
    (updateMap m k v).map Prod.fst = m.map Prod.fst := by
  induction m with
  | nil => simp [lookupMap] at h
  | cons pr rest ih =>
    obtain ⟨k2, v2⟩ := pr
    by_cases hk : k2 = k <;> simp_all [lookupMap, updateMap, hk]

theorem updateMap_mem {κ α : Type} [DecidableEq κ] (m : List (κ × α)) (k : κ) (v : α) :
    ∀ pr ∈ updateMap m k v, (pr.1 = k ∧ pr.2 = v) ∨ pr ∈ m := by
  induction m with
  | nil => simp [updateMap]
  | cons hd rest ih =>
    obtain ⟨k2, v2⟩ := hd
    intro pr hpr
    by_cases hk : k2 = k
    · subst hk
      simp [updateMap] at hpr
      rcases hpr with h | h
      · exact Or.inl (by simp [h])
      · exact Or.inr (by simp [h])
    · simp [updateMap, hk] at hpr
      rcases hpr with h | h
      · exact Or.inr (by simp [h])
      · rcases ih pr h with h2 | h2
        · exact Or.inl h2
        · exact Or.inr (by simp [h2])

theorem lookupMap_incMap_self (m : List (String × Int)) (k : String) :
    lookupMap (incMap m k) k = some ((lookupMap m k).getD 0 + 1) := by
  induction m with
  | nil => simp [lookupMap, incMap]
  | cons pr rest ih =>
    obtain ⟨k2, v⟩ := pr
    by_cases hk : k2 = k <;> simp [lookupMap, incMap, hk, ih]

/-! ## Helper lemmas: the semver order -/

theorem semverLt_iff (a b : Semver) :
    Semver.lt a b = true ↔
      (a.major < b.major ∨ (a.major = b.major ∧
        (a.minor < b.minor ∨ (a.minor = b.minor ∧ a.patch < b.patch)))) := by
  simp [Semver.lt]

theorem semverLt_asymm_trans (a b c : Semver) (h1 : Semver.lt a b = true)
    (h2 : Semver.lt c b = false) : Semver.lt c a = false := by
  rw [semverLt_iff] at h1
  rw [Bool.eq_false_iff, ne_eq, semverLt_iff] at h2 ⊢
  omega

theorem semverLt_ge_trans (a b c : Semver) (h1 : Semver.lt a b = false)
    (h2 : Semver.lt b c = false) : Semver.lt a c = false := by
  rw [Bool.eq_false_iff, ne_eq, semverLt_iff] at h1 h2 ⊢
  omega

/-! ## Concrete fixtures used by witnesses and counterexamples -/

/-- Decidable equality on `Except`, for evaluating the fixtures. -/
instance {ε α : Type} [DecidableEq ε] [DecidableEq α] : DecidableEq (Except ε α) := fun a b =>
  match a, b with
  | Except.error e1, Except.error e2 =>
    if h : e1 = e2 then isTrue (by rw [h]) else isFalse (by simp [h])
  | Except.ok v1, Except.ok v2 =>
    if h : v1 = v2 then isTrue (by rw [h]) else isFalse (by simp [h])
  | Except.error _, Except.ok _ => isFalse (by simp)
  | Except.ok _, Except.error _ => isFalse (by simp)

/-- Published version 1.5.0 of the fixture package `dep`. -/
def depInfoA : VersionInfo := { emptyVersionInfo with name := "dep", version := "1.5.0" }

/-- Published version 2.3.0 of the fixture package `dep`. -/
def depInfoB : VersionInfo := { emptyVersionInfo with name := "dep", version := "2.3.0" }

/-- A fixture registry package with two published versions. -/
def depPackage : PackageInfo :=
  { name := "dep", distTags := ⟨"2.3.0"⟩,
    versions := [("1.5.0", depInfoA), ("2.3.0", depInfoB)], time := [] }

/-- A fixture pool: only `dep` resolves. -/
def fetchFix : String → Except String PackageInfo :=
  fun n => if n = "dep" then Except.ok depPackage else Except.error "not found"

/-- A fixture root whose direct dependencies are given. -/
def rootInfo (deps : List (String × String)) : VersionInfo :=
  { emptyVersionInfo with name := "root", version := "1.0.0", dependencies := deps }

/-- A fixture vulnerability on `dep` with vulnerable range `<1.2.3`. -/
def vulnFix : Vulnerability :=
  { id := "V1", packageManager := "npm", packageName := "dep", title := "t",
    publicationTime := 0, semver := ⟨["<1.2.3"]⟩, severity := "high" }

/-- A fixture vulnerability whose severity is none of the four buckets. -/
def vulnUnknownFix : Vulnerability := { vulnFix with id := "V2", severity := "unknown" }

/-- A vulnerability table with no rows. -/
def emptyVulnDb : List String → Except String (List Vulnerability) :=
  fun _ => Except.ok []

/-- A vulnerability table whose query fails. -/
def failingVulnDb : List String → Except String (List Vulnerability) :=
  fun _ => Except.error "db down"

/-! ## C3 — expiry policy -/

/-- The spec example is wrong at age 30 days: the code computes
`age/100 = 7.2h` (which lies inside the clamp window), not the claimed 24
hours. -/
theorem C3_thirty_day_counterexample :
    calcExpire (720 * nsPerHour) 0 ≠ 720 * nsPerHour + 24 * nsPerHour := by
  decide

/-- C3 (amended): `calcExpire` adds `age/100` clamped to at least one hour
and at most 24 hours; for ages of 10 minutes, 10 hours and 30 days the
durations are 1h, 1h (6 minutes clamped up) and `age/100 = 7.2h`; the 24h
cap binds only past 100 days, e.g. at age one year. -/
theorem C3_expiry_clamp (now lastUpdate : Int) :
    calcExpire now lastUpdate =
      now + max nsPerHour (min (24 * nsPerHour) ((now - lastUpdate).tdiv 100)) ∧
    calcExpire (10 * 60 * 1000000000) 0 = 10 * 60 * 1000000000 + nsPerHour ∧
    calcExpire (10 * nsPerHour) 0 = 10 * nsPerHour + nsPerHour ∧
    calcExpire (720 * nsPerHour) 0 = 720 * nsPerHour + 25920 * 1000000000 ∧
    calcExpire (8760 * nsPerHour) 0 = 8760 * nsPerHour + 24 * nsPerHour := by
  refine ⟨?_, by decide, by decide, by decide, by decide⟩
  simp only [calcExpire, nsPerHour]
  generalize (now - lastUpdate).tdiv 100 = t
  split_ifs <;> omega

/-! ## C10 — severity buckets -/

theorem vulnStats_foldl (l : List Vulnerability) :
    ∀ s : VulnerabilityStats,
      l.foldl vulnStatsStep s =
        ⟨s.lowCount + (l.countP (fun v => v.severity = "low") : Int),
         s.mediumCount + (l.countP (fun v => v.severity = "medium") : Int),
         s.highCount + (l.countP (fun v => v.severity = "high") : Int),
         s.criticalCount + (l.countP (fun v => v.severity = "critical") : Int)⟩ := by
  induction l with
  | nil => intro s; simp
  | cons v l ih =>
    intro s
    simp only [List.foldl_cons, ih, List.countP_cons]
    unfold vulnStatsStep
    split_ifs with h1 h2 h3 h4 <;> simp_all <;> omega

theorem countP_severity_sum_le (l : List Vulnerability) :
    l.countP (fun v => v.severity = "low") + l.countP (fun v => v.severity = "medium") +
      l.countP (fun v => v.severity = "high") +
      l.countP (fun v => v.severity = "critical") ≤ l.length := by
  induction l with
  | nil => simp
  | cons v l ih =>
    simp only [List.countP_cons, List.length_cons]
    by_cases h1 : v.severity = "low" <;> by_cases h2 : v.severity = "medium" <;>
      by_cases h3 : v.severity = "high" <;> by_cases h4 : v.severity = "critical" <;>
      simp_all <;> omega

/-- C10: `GetVulnerabilityStats` counts a vulnerability in exactly the
bucket named by its severity and in no bucket for any other severity
string, so the four buckets sum to at most — and not always exactly — the
number of vulnerabilities (last conjunct: a severity `"unknown"` entry is
counted nowhere). -/
theorem C10_severity_buckets (vulns : List Vulnerability) :
    (GetVulnerabilityStats vulns).lowCount = (vulns.countP (fun v => v.severity = "low") : Int) ∧
    (GetVulnerabilityStats vulns).mediumCount =
      (vulns.countP (fun v => v.severity = "medium") : Int) ∧
    (GetVulnerabilityStats vulns).highCount =
      (vulns.countP (fun v => v.severity = "high") : Int) ∧
    (GetVulnerabilityStats vulns).criticalCount =
      (vulns.countP (fun v => v.severity = "critical") : Int) ∧
    (GetVulnerabilityStats vulns).lowCount + (GetVulnerabilityStats vulns).mediumCount +
        (GetVulnerabilityStats vulns).highCount + (GetVulnerabilityStats vulns).criticalCount ≤
      (vulns.length : Int) ∧
    (GetVulnerabilityStats [vulnUnknownFix]).lowCount +
        (GetVulnerabilityStats [vulnUnknownFix]).mediumCount +
        (GetVulnerabilityStats [vulnUnknownFix]).highCount +
        (GetVulnerabilityStats [vulnUnknownFix]).criticalCount <
      (([vulnUnknownFix] : List Vulnerability).length : Int) := by
  have h := vulnStats_foldl vulns ⟨0, 0, 0, 0⟩
  have hle := countP_severity_sum_le vulns
  refine ⟨?_, ?_, ?_, ?_, ?_, by decide⟩ <;>
    simp only [GetVulnerabilityStats, h] <;> omega

/-! ## C9 — publishers histogram asymmetry -/

/-- C9: `NewVersion` seeds the publisher histogram only for a non-empty
root publisher, while the gather merge increments the child publisher's
entry unconditionally — so a resolved tree can carry an entry keyed by the
empty string (last conjunct: the fixture run, whose only child has no
publisher, ends with `publishers = [("", 1)]`). -/
theorem C9_publishers_asymmetry :
    (∀ (vi : VersionInfo) (t : Int), vi.GetPublisher = "" → (NewVersion vi t).publishers = []) ∧
    (∀ (parent : Version) (child : VersionInfo),
      lookupMap (gatherMerge parent child).publishers child.GetPublisher =
        some ((lookupMap parent.publishers child.GetPublisher).getD 0 + 1)) ∧
    (VersionInfo.GatherDependencies fetchFix 5 (rootInfo [("dep", "<2.0.0")]) false
        (NewVersion (rootInfo [("dep", "<2.0.0")]) 0)).publishers = [("", 1)] := by
  refine ⟨?_, ?_, by decide⟩
  · intro vi t h
    simp [NewVersion, h]
  · intro parent child
    exact lookupMap_incMap_self _ _

theorem C9_publishers_asymmetry_witness :
    (NewVersion emptyVersionInfo 0).publishers = [] ∧
    lookupMap (gatherMerge (NewVersion emptyVersionInfo 0) emptyVersionInfo).publishers
        emptyVersionInfo.GetPublisher =
      some ((lookupMap (NewVersion emptyVersionInfo 0).publishers
        emptyVersionInfo.GetPublisher).getD 0 + 1) :=
  ⟨C9_publishers_asymmetry.1 emptyVersionInfo 0 (by decide),
   C9_publishers_asymmetry.2.1 (NewVersion emptyVersionInfo 0) emptyVersionInfo⟩

/-! ## C8 — platform filtering -/

/-- A fixture version restricted to the `darwin` operating system. -/
def darwinInfo : VersionInfo :=
  { emptyVersionInfo with name := "native", version := "1.0.0", os := ["darwin"] }

/-- A fixture package whose only version is `darwin`-restricted. -/
def darwinPackage : PackageInfo :=
  { name := "native", distTags := ⟨"1.0.0"⟩, versions := [("1.0.0", darwinInfo)], time := [] }

/-- A fixture pool resolving only the `darwin`-restricted package. -/
def fetchDarwin : String → Except String PackageInfo :=
  fun n => if n = "native" then Except.ok darwinPackage else Except.error "not found"

/-- C8: `MatchPlatform` fails exactly when a non-empty OS or CPU list lacks
the target (first conjunct), never fails on empty restriction lists (second
conjunct), and a selected child version failing the fixed `("linux",
"x64")` platform test is skipped with the aggregate returned untouched — no
version, no stats, no error (third conjunct). -/
theorem C8_platform_filtering :
    (∀ (p : VersionInfo) (os cpu : String),
      p.MatchPlatform os cpu = false ↔
        ((p.os ≠ [] ∧ strArrContain p.os os = false) ∨
          (p.cpu ≠ [] ∧ strArrContain p.cpu cpu = false))) ∧
    (∀ (p : VersionInfo) (os cpu : String), p.os = [] → p.cpu = [] →
      p.MatchPlatform os cpu = true) ∧
    (∀ (recur : Version → VersionInfo → Version)
        (fetch : String → Except String PackageInfo) (parent : Version)
        (name constraintRaw : String) (pkg : PackageInfo) (childVersion : VersionInfo),
      fetch name = Except.ok pkg →
      pkg.MaxVersion constraintRaw = Except.ok childVersion →
      childVersion.MatchPlatform "linux" "x64" = false →
      gatherOne recur fetch parent name constraintRaw = parent) := by
  refine ⟨?_, ?_, ?_⟩
  · intro p os cpu
    simp only [VersionInfo.MatchPlatform]
    by_cases h1 : (p.os.length > 0 && !strArrContain p.os os) = true
    · rw [if_pos h1]
      simp only [Bool.and_eq_true, decide_eq_true_eq, Bool.not_eq_true'] at h1
      exact iff_of_true rfl (Or.inl ⟨List.length_pos.mp h1.1, h1.2⟩)
    · rw [if_neg h1]
      by_cases h2 : (p.cpu.length > 0 && !strArrContain p.cpu cpu) = true
      · rw [if_pos h2]
        simp only [Bool.and_eq_true, decide_eq_true_eq, Bool.not_eq_true'] at h2
        exact iff_of_true rfl (Or.inr ⟨List.length_pos.mp h2.1, h2.2⟩)
      · rw [if_neg h2]
        apply iff_of_false (by simp)
        rintro (⟨hne, hcont⟩ | ⟨hne, hcont⟩)
        · refine h1 ?_
          simp only [Bool.and_eq_true, decide_eq_true_eq, Bool.not_eq_true', hcont]
          exact ⟨List.length_pos.mpr hne, trivial⟩
        · refine h2 ?_
          simp only [Bool.and_eq_true, decide_eq_true_eq, Bool.not_eq_true', hcont]
          exact ⟨List.length_pos.mpr hne, trivial⟩
  · intro p os cpu hos hcpu
    simp [VersionInfo.MatchPlatform, hos, hcpu, strArrContain]
  · intro recur fetch parent name constraintRaw pkg childVersion hfetch hmax hplat
    cases hc : semverNewConstraint constraintRaw with
    | none =>
      simp [PackageInfo.MaxVersion, hc] at hmax
    | some c =>
      simp only [gatherOne, hfetch, hc, hmax, hplat]
      simp

theorem C8_platform_filtering_witness :
    darwinInfo.MatchPlatform "linux" "x64" = false ∧
    emptyVersionInfo.MatchPlatform "linux" "x64" = true ∧
    gatherOne (fun par _ => par) fetchDarwin (NewVersion (rootInfo []) 0) "native" ">=1.0.0" =
      NewVersion (rootInfo []) 0 :=
  ⟨(C8_platform_filtering.1 darwinInfo "linux" "x64").mpr
      (Or.inl ⟨by decide, by decide⟩),
   C8_platform_filtering.2.1 emptyVersionInfo "linux" "x64" (by decide) (by decide),
   C8_platform_filtering.2.2 (fun par _ => par) fetchDarwin (NewVersion (rootInfo []) 0)
     "native" ">=1.0.0" darwinPackage darwinInfo (by decide) (by decide) (by decide)⟩

/-! ## C1 — dedup pool -/

/-- Occurrences of a key in a log. -/
def countKey (l : List String) (k : String) : Nat :=
  l.countP (fun x => x = k)

theorem countKey_nil (k : String) : countKey [] k = 0 := rfl

theorem countKey_cons (a : String) (l : List String) (k : String) :
    countKey (a :: l) k = countKey l k + (if a = k then 1 else 0) := by
  by_cases h : a = k <;> simp [countKey, List.countP_cons, h]

theorem countKey_append (l1 l2 : List String) (k : String) :
    countKey (l1 ++ l2) k = countKey l1 k + countKey l2 k :=
  List.countP_append _ _ _

theorem lookupMap_mem {κ α : Type} [DecidableEq κ] (m : List (κ × α)) (k : κ) (v : α)
    (h : lookupMap m k = some v) : (k, v) ∈ m := by
  induction m with
  | nil => simp [lookupMap] at h
  | cons pr rest ih =>
    obtain ⟨k2, v2⟩ := pr
    by_cases hk : k2 = k
    · subst hk
      simp only [lookupMap, eq_self_iff_true, if_true, Option.some.injEq] at h
      subst h
      exact List.mem_cons_self _ _
    · simp only [lookupMap, if_neg hk] at h
      exact List.mem_cons_of_mem _ (ih h)

/-- The inductive invariant of the pool transition system: enqueues happen
exactly at future creation (and a future, once registered, is never
removed), the queue plus the perform log balance the enqueue log, every
caller was handed the registered future of its key, future ids are fresh
and distinct across keys, and a performed key's registered future holds
that key's `Perform` result. -/
structure PoolInv {R : Type} (pf : String → R) (s : PoolState R) : Prop where
  uniq : ∀ k, countKey s.enqueueLog k = if (lookupMap s.futures k).isSome then 1 else 0
  bal : ∀ k, countKey s.queue k + countKey s.performLog k = countKey s.enqueueLog k
  logOk : ∀ k fid, (k, fid) ∈ s.processLog → lookupMap s.futures k = some fid
  fidFresh : ∀ pr ∈ s.futures, pr.2 < s.nextId
  fidInj : ∀ p1 ∈ s.futures, ∀ p2 ∈ s.futures, p1.2 = p2.2 → p1.1 = p2.1
  resOk : ∀ k fid, lookupMap s.futures k = some fid → 1 ≤ countKey s.performLog k →
    lookupMap s.resolved fid = some (pf k)
  queueFut : ∀ k ∈ s.queue, (lookupMap s.futures k).isSome

theorem poolInv_init {R : Type} (pf : String → R) : PoolInv pf (initPoolState (R := R)) := by
  refine ⟨?_, ?_, ?_, ?_, ?_, ?_, ?_⟩ <;> simp [initPoolState, countKey, lookupMap]

theorem poolInv_step {R : Type} (pf : String → R) (s : PoolState R) (e : PoolEvent)
    (h : PoolInv pf s) : PoolInv pf (poolStep pf s e) := by
  cases e with
  | processKey key =>
    cases hf : lookupMap s.futures key with
    | some fid =>
      simp only [poolStep, hf]
      refine ⟨h.uniq, h.bal, ?_, h.fidFresh, h.fidInj, h.resOk, h.queueFut⟩
      intro k fid2 hmem
      dsimp only at hmem
      rcases List.mem_append.mp hmem with hold | hnew
      · exact h.logOk k fid2 hold
      · simp only [List.mem_singleton, Prod.mk.injEq] at hnew
        rw [hnew.1, hnew.2]
        exact hf
    | none =>
      simp only [poolStep, hf]
      have hkeys : ∀ k, k ≠ key →
          lookupMap (s.futures ++ [(key, s.nextId)]) k = lookupMap s.futures k := by
        intro k hk
        have hne : ¬key = k := fun hh => hk hh.symm
        cases hf2 : lookupMap s.futures k with
        | some v => exact lookupMap_append_left _ _ _ _ hf2
        | none =>
          rw [lookupMap_append_right _ _ _ hf2]
          simp [lookupMap, hne]
      have hkey : lookupMap (s.futures ++ [(key, s.nextId)]) key = some s.nextId := by
        rw [lookupMap_append_right _ _ _ hf]
        simp [lookupMap]
      refine ⟨?_, ?_, ?_, ?_, ?_, ?_, ?_⟩ <;> dsimp only
      · intro k
        by_cases hk : k = key
        · subst hk
          rw [hkey]
          have huniq := h.uniq k
          rw [hf] at huniq
          simp only [Option.isSome_none, Bool.false_eq_true, if_false] at huniq
          rw [countKey_append, huniq]
          simp [countKey_cons, countKey_nil]
        · have hne : ¬key = k := fun hh => hk hh.symm
          rw [hkeys k hk, countKey_append]
          have hzero : countKey [key] k = 0 := by
            simp [countKey_cons, countKey_nil, hne]
          rw [hzero, Nat.add_zero]
          exact h.uniq k
      · intro k
        rw [countKey_append, countKey_append]
        have hb := h.bal k
        omega
      · intro k fid2 hmem
        rcases List.mem_append.mp hmem with hold | hnew
        · have hsome := h.logOk k fid2 hold
          exact lookupMap_append_left _ _ _ _ hsome
        · simp only [List.mem_singleton, Prod.mk.injEq] at hnew
          rw [hnew.1, hnew.2]
          exact hkey
      · intro pr hpr
        rcases List.mem_append.mp hpr with hold | hnew
        · exact Nat.lt_succ_of_lt (h.fidFresh pr hold)
        · simp only [List.mem_singleton] at hnew
          rw [hnew]
          exact Nat.lt_succ_self _
      · intro p1 hp1 p2 hp2 heq
        rcases List.mem_append.mp hp1 with h1 | h1 <;>
          rcases List.mem_append.mp hp2 with h2 | h2
        · exact h.fidInj p1 h1 p2 h2 heq
        · simp only [List.mem_singleton] at h2
          have hlt := h.fidFresh p1 h1
          rw [h2] at heq
          simp only [heq] at hlt
          exact absurd hlt (Nat.lt_irrefl _)
        · simp only [List.mem_singleton] at h1
          have hlt := h.fidFresh p2 h2
          rw [h1] at heq
          simp only [← heq] at hlt
          exact absurd hlt (Nat.lt_irrefl _)
        · simp only [List.mem_singleton] at h1 h2
          rw [h1, h2]
      · intro k fid2 hfk hperf
        by_cases hk : k = key
        · subst hk
          have hb := h.bal k
          have huniq := h.uniq k
          rw [hf] at huniq
          simp only [Option.isSome_none, Bool.false_eq_true, if_false] at huniq
          omega
        · rw [hkeys k hk] at hfk
          exact h.resOk k fid2 hfk hperf
      · intro k hkq
        rcases List.mem_append.mp hkq with hold | hnew
        · have hso := h.queueFut k hold
          cases hf2 : lookupMap s.futures k with
          | some v => rw [lookupMap_append_left _ _ _ _ hf2]; rfl
          | none => rw [hf2] at hso; simp at hso
        · simp only [List.mem_singleton] at hnew
          rw [hnew, hkey]
          rfl
  | workerStep =>
    cases hq : s.queue with
    | nil => simpa only [poolStep, hq] using h
    | cons key rest =>
      simp only [poolStep, hq]
      have hkf : (lookupMap s.futures key).isSome := by
        apply h.queueFut
        rw [hq]
        exact List.mem_cons_self _ _
      obtain ⟨fid0, hfid0⟩ := Option.isSome_iff_exists.mp hkf
      refine ⟨h.uniq, ?_, h.logOk, h.fidFresh, h.fidInj, ?_, ?_⟩ <;> dsimp only
      · intro k
        have hb := h.bal k
        rw [hq, countKey_cons] at hb
        rw [countKey_append]
        simp only [countKey_cons, countKey_nil]
        omega
      · intro k fid2 hfk hperf
        simp only [hfid0, Option.getD_some]
        by_cases hk : k = key
        · subst hk
          have hfe : fid2 = fid0 := Option.some.inj (hfk.symm.trans hfid0)
          rw [hfe]
          exact lookupMap_updateMap_self _ _ _
        · have hne : fid2 ≠ fid0 := by
            intro hcontra
            have hm1 := lookupMap_mem _ _ _ hfk
            have hm2 := lookupMap_mem _ _ _ hfid0
            have hij := h.fidInj (k, fid2) hm1 (key, fid0) hm2 (by simpa using hcontra)
            exact hk (by simpa using hij)
          rw [lookupMap_updateMap_other _ _ _ _ hne]
          apply h.resOk k fid2 hfk
          have hne2 : ¬key = k := fun hh => hk hh.symm
          rw [countKey_append] at hperf
          simp only [countKey_cons, countKey_nil, hne2, if_false] at hperf
          omega
      · intro k hkq
        apply h.queueFut
        rw [hq]
        exact List.mem_cons_of_mem _ hkq

theorem poolInv_run {R : Type} (pf : String → R) (events : List PoolEvent) :
    PoolInv pf (runPool pf events) := by
  suffices hgen : ∀ s : PoolState R, PoolInv pf s → PoolInv pf (events.foldl (poolStep pf) s) by
    exact hgen _ (poolInv_init pf)
  induction events with
  | nil => intro s hs; exact hs
  | cons e rest ih =>
    intro s hs
    exact ih _ (poolInv_step pf s e hs)

/-- C1: over every interleaving of callers and workers on an initially
unregistered (uncached) key, the key is enqueued exactly once —
`getOrCreate` answers `isNew = true` at most once — at most one `Perform`
runs (exactly one once the queue has drained), every `ProcessKey` caller is
handed one and the same future, and that future resolves to the one
`Perform` result `pf key`. -/
theorem C1_pool_dedup {R : Type} (pf : String → R) (events : List PoolEvent) (key : String)
    (hcalled : ∃ fid, (key, fid) ∈ (runPool pf events).processLog) :
    countKey (runPool pf events).enqueueLog key = 1 ∧
    countKey (runPool pf events).performLog key ≤ 1 ∧
    ((runPool pf events).queue = [] → countKey (runPool pf events).performLog key = 1) ∧
    (∀ f1 f2, (key, f1) ∈ (runPool pf events).processLog →
      (key, f2) ∈ (runPool pf events).processLog → f1 = f2) ∧
    (∀ fid, (key, fid) ∈ (runPool pf events).processLog →
      1 ≤ countKey (runPool pf events).performLog key →
      lookupMap (runPool pf events).resolved fid = some (pf key)) := by
  have hinv := poolInv_run pf events
  obtain ⟨fid, hfid⟩ := hcalled
  have hsome := hinv.logOk key fid hfid
  have huniq := hinv.uniq key
  rw [hsome] at huniq
  simp only [Option.isSome_some, if_true] at huniq
  have hbal := hinv.bal key
  refine ⟨huniq, by omega, ?_, ?_, ?_⟩
  · intro hempty
    rw [hempty] at hbal
    simp only [countKey_nil] at hbal
    omega
  · intro f1 f2 h1 h2
    have e1 := hinv.logOk key f1 h1
    have e2 := hinv.logOk key f2 h2
    exact Option.some.inj (e1.symm.trans e2)
  · intro fid2 hmem hperf
    exact hinv.resOk key fid2 (hinv.logOk key fid2 hmem) hperf

theorem C1_pool_dedup_witness :
    countKey (runPool (fun _ => (7 : Nat))
        [PoolEvent.processKey "a", PoolEvent.processKey "a", PoolEvent.workerStep]).enqueueLog
      "a" = 1 ∧
    countKey (runPool (fun _ => (7 : Nat))
        [PoolEvent.processKey "a", PoolEvent.processKey "a", PoolEvent.workerStep]).performLog
      "a" ≤ 1 ∧
    ((runPool (fun _ => (7 : Nat))
        [PoolEvent.processKey "a", PoolEvent.processKey "a", PoolEvent.workerStep]).queue = [] →
      countKey (runPool (fun _ => (7 : Nat))
        [PoolEvent.processKey "a", PoolEvent.processKey "a", PoolEvent.workerStep]).performLog
        "a" = 1) ∧
    (∀ f1 f2,
      ("a", f1) ∈ (runPool (fun _ => (7 : Nat))
        [PoolEvent.processKey "a", PoolEvent.processKey "a", PoolEvent.workerStep]).processLog →
      ("a", f2) ∈ (runPool (fun _ => (7 : Nat))
        [PoolEvent.processKey "a", PoolEvent.processKey "a", PoolEvent.workerStep]).processLog →
      f1 = f2) ∧
    (∀ fid,
      ("a", fid) ∈ (runPool (fun _ => (7 : Nat))
        [PoolEvent.processKey "a", PoolEvent.processKey "a", PoolEvent.workerStep]).processLog →
      1 ≤ countKey (runPool (fun _ => (7 : Nat))
        [PoolEvent.processKey "a", PoolEvent.processKey "a", PoolEvent.workerStep]).performLog
        "a" →
      lookupMap (runPool (fun _ => (7 : Nat))
        [PoolEvent.processKey "a", PoolEvent.processKey "a", PoolEvent.workerStep]).resolved
        fid = some 7) :=
  C1_pool_dedup (fun _ => (7 : Nat))
    [PoolEvent.processKey "a", PoolEvent.processKey "a", PoolEvent.workerStep] "a"
    ⟨0, by decide⟩

/-! ## C6 — MaxVersion -/

theorem semverLt_irrefl (a : Semver) : Semver.lt a a = false := by
  rw [Bool.eq_false_iff, ne_eq, semverLt_iff]
  omega

theorem semverLt_asymm (a b : Semver) (h : Semver.lt a b = true) :
    Semver.lt b a = false := by
  rw [semverLt_iff] at h
  rw [Bool.eq_false_iff, ne_eq, semverLt_iff]
  omega

theorem maxStep_none (c : Constraints) (acc : Option (Semver × VersionInfo))
    (pr : String × VersionInfo) :
    maxStep c acc pr = none ↔
      (acc = none ∧ ∀ w, semverNewVersion pr.1 = some w → c.check w = false) := by
  unfold maxStep
  cases hp : semverNewVersion pr.1 with
  | none => simp [hp]
  | some version =>
    dsimp only
    by_cases hchk : c.check version = true
    · simp only [hchk, if_true]
      cases acc with
      | none => simp [hp, hchk]
      | some a =>
        obtain ⟨mv, mi⟩ := a
        by_cases hgt : version.greaterThan mv = true <;> simp [hgt, hp, hchk]
    · rw [if_neg hchk]
      constructor
      · intro ha
        refine ⟨ha, ?_⟩
        intro w hw
        rw [Option.some.injEq] at hw
        rw [← hw]
        exact Bool.eq_false_iff.mpr hchk
      · exact fun hand => hand.1

theorem maxStep_some_char (c : Constraints) (acc : Option (Semver × VersionInfo))
    (pr : String × VersionInfo) (ver : Semver) (info : VersionInfo)
    (h : maxStep c acc pr = some (ver, info)) :
    (acc = some (ver, info) ∨
      (semverNewVersion pr.1 = some ver ∧ c.check ver = true ∧ info = pr.2)) ∧
    (∀ v0 i0, acc = some (v0, i0) → Semver.lt ver v0 = false) ∧
    (∀ w, semverNewVersion pr.1 = some w → c.check w = true → Semver.lt ver w = false) := by
  unfold maxStep at h
  cases hp : semverNewVersion pr.1 with
  | none =>
    rw [hp] at h
    dsimp only at h
    refine ⟨Or.inl h, ?_, ?_⟩
    · intro v0 i0 ha
      rw [ha, Option.some.injEq, Prod.mk.injEq] at h
      rw [h.1]
      exact semverLt_irrefl _
    · intro w hw
      cases hw
  | some version =>
    rw [hp] at h
    dsimp only at h
    by_cases hchk : c.check version = true
    · rw [if_pos hchk] at h
      cases acc with
      | none =>
        simp only [Option.some.injEq, Prod.mk.injEq] at h
        refine ⟨Or.inr ⟨by rw [h.1], by rw [← h.1]; exact hchk, h.2.symm⟩, ?_, ?_⟩
        · intro v0 i0 ha
          cases ha
        · intro w hw hcw
          rw [Option.some.injEq] at hw
          rw [← hw, ← h.1]
          exact semverLt_irrefl _
      | some a =>
        obtain ⟨mv, mi⟩ := a
        dsimp only at h
        by_cases hgt : version.greaterThan mv = true
        · rw [if_pos hgt] at h
          simp only [Option.some.injEq, Prod.mk.injEq] at h
          have hlt : Semver.lt mv version = true := hgt
          refine ⟨Or.inr ⟨by rw [h.1], by rw [← h.1]; exact hchk, h.2.symm⟩, ?_, ?_⟩
          · intro v0 i0 ha
            simp only [Option.some.injEq, Prod.mk.injEq] at ha
            rw [← h.1, ← ha.1]
            exact semverLt_asymm _ _ hlt
          · intro w hw hcw
            rw [Option.some.injEq] at hw
            rw [← hw, ← h.1]
            exact semverLt_irrefl _
        · rw [if_neg hgt] at h
          simp only [Option.some.injEq, Prod.mk.injEq] at h
          have hnl : Semver.lt mv version = false := Bool.eq_false_iff.mpr hgt
          refine ⟨Or.inl (by rw [h.1, h.2]), ?_, ?_⟩
          · intro v0 i0 ha
            simp only [Option.some.injEq, Prod.mk.injEq] at ha
            rw [← h.1, ← ha.1]
            exact semverLt_irrefl _
          · intro w hw hcw
            rw [Option.some.injEq] at hw
            rw [← h.1, ← hw]
            exact hnl
    · rw [if_neg hchk] at h
      refine ⟨Or.inl h, ?_, ?_⟩
      · intro v0 i0 ha
        rw [ha, Option.some.injEq, Prod.mk.injEq] at h
        rw [h.1]
        exact semverLt_irrefl _
      · intro w hw hcw
        rw [Option.some.injEq] at hw
        rw [← hw] at hcw
        exact absurd hcw hchk

theorem maxStep_fold_none (c : Constraints) (L : List (String × VersionInfo)) :
    ∀ acc, L.foldl (maxStep c) acc = none ↔
      (acc = none ∧ ∀ pr ∈ L, ∀ w, semverNewVersion pr.1 = some w → c.check w = false) := by
  induction L with
  | nil => intro acc; simp
  | cons pr L ih =>
    intro acc
    rw [List.foldl_cons, ih, maxStep_none]
    constructor
    · rintro ⟨⟨hacc, hpr⟩, hrest⟩
      refine ⟨hacc, ?_⟩
      intro pr2 hpr2
      rcases List.mem_cons.mp hpr2 with he | hm
      · subst he; exact hpr
      · exact hrest pr2 hm
    · rintro ⟨hacc, hall⟩
      exact ⟨⟨hacc, hall pr (List.mem_cons_self _ _)⟩,
        fun pr2 hm => hall pr2 (List.mem_cons_of_mem _ hm)⟩

theorem maxStep_fold_some (c : Constraints) (L : List (String × VersionInfo)) :
    ∀ acc ver info, L.foldl (maxStep c) acc = some (ver, info) →
      (acc = some (ver, info) ∨
        ∃ vr, (vr, info) ∈ L ∧ semverNewVersion vr = some ver ∧ c.check ver = true) ∧
      (∀ v0 i0, acc = some (v0, i0) → Semver.lt ver v0 = false) ∧
      (∀ pr ∈ L, ∀ w, semverNewVersion pr.1 = some w → c.check w = true →
        Semver.lt ver w = false) := by
  induction L with
  | nil =>
    intro acc ver info h
    simp only [List.foldl_nil] at h
    refine ⟨Or.inl h, ?_, ?_⟩
    · intro v0 i0 ha
      rw [ha, Option.some.injEq, Prod.mk.injEq] at h
      rw [h.1]
      exact semverLt_irrefl _
    · intro pr hpr
      cases hpr
  | cons pr L ih =>
    intro acc ver info h
    rw [List.foldl_cons] at h
    obtain ⟨hprov, hdom, hrest⟩ := ih (maxStep c acc pr) ver info h
    cases hacc2 : maxStep c acc pr with
    | none =>
      obtain ⟨haccn, hnosat⟩ := (maxStep_none c acc pr).mp hacc2
      rcases hprov with hp1 | hp1
      · rw [hacc2] at hp1
        cases hp1
      · refine ⟨Or.inr ?_, ?_, ?_⟩
        · obtain ⟨vr, hvr, hparse, hchk⟩ := hp1
          exact ⟨vr, List.mem_cons_of_mem _ hvr, hparse, hchk⟩
        · intro v0 i0 ha
          rw [ha] at haccn
          cases haccn
        · intro pr2 hpr2 w hw hcw
          rcases List.mem_cons.mp hpr2 with he | hm
          · subst he
            exact absurd hcw (by rw [hnosat w hw]; simp)
          · exact hrest pr2 hm w hw hcw
    | some a =>
      obtain ⟨v1, i1⟩ := a
      obtain ⟨sprov, sdom, sstep⟩ := maxStep_some_char c acc pr v1 i1 hacc2
      have hdom1 : Semver.lt ver v1 = false := hdom v1 i1 hacc2
      refine ⟨?_, ?_, ?_⟩
      · rcases hprov with hp1 | hp1
        · rw [hacc2, Option.some.injEq, Prod.mk.injEq] at hp1
          rcases sprov with hs1 | hs1
          · exact Or.inl (by rw [← hp1.1, ← hp1.2]; exact hs1)
          · refine Or.inr ⟨pr.1, ?_, ?_, ?_⟩
            · have hinfo : info = pr.2 := hp1.2.symm.trans hs1.2.2
              rw [hinfo]
              exact List.mem_cons_self _ _
            · rw [← hp1.1]
              exact hs1.1
            · rw [← hp1.1]
              exact hs1.2.1
        · obtain ⟨vr, hvr, hparse, hchk⟩ := hp1
          exact Or.inr ⟨vr, List.mem_cons_of_mem _ hvr, hparse, hchk⟩
      · intro v0 i0 ha
        have hs := sdom v0 i0 ha
        exact semverLt_ge_trans ver v1 v0 hdom1 hs
      · intro pr2 hpr2 w hw hcw
        rcases List.mem_cons.mp hpr2 with he | hm
        · subst he
          have hs := sstep w hw hcw
          exact semverLt_ge_trans ver v1 w hdom1 hs
        · exact hrest pr2 hm w hw hcw

/-- C6: `MaxVersion` fails on an unparseable constraint; given a parseable
constraint it fails exactly when no (parseable) published version satisfies
it, and on success it returns the stored `VersionInfo` of a satisfying
version that no other satisfying published version strictly exceeds in
semantic-version precedence. -/
theorem C6_MaxVersion_correct (p : PackageInfo) (constraintRaw : String) :
    (semverNewConstraint constraintRaw = none →
      p.MaxVersion constraintRaw = Except.error ("improper constraint: " ++ constraintRaw)) ∧
    (∀ c, semverNewConstraint constraintRaw = some c →
      ((∃ e, p.MaxVersion constraintRaw = Except.error e) ↔
        ∀ pr ∈ p.versions, ∀ w, semverNewVersion pr.1 = some w → c.check w = false) ∧
      (∀ info, p.MaxVersion constraintRaw = Except.ok info →
        ∃ vr ver, (vr, info) ∈ p.versions ∧ semverNewVersion vr = some ver ∧
          c.check ver = true ∧
          ∀ pr ∈ p.versions, ∀ w, semverNewVersion pr.1 = some w → c.check w = true →
            Semver.lt ver w = false)) := by
  constructor
  · intro hc
    simp [PackageInfo.MaxVersion, hc]
  · intro c hc
    constructor
    · constructor
      · rintro ⟨e, he⟩
        simp only [PackageInfo.MaxVersion, hc] at he
        cases hfold : p.versions.foldl (maxStep c) none with
        | none => exact ((maxStep_fold_none c p.versions none).mp hfold).2
        | some a =>
          obtain ⟨ver, info⟩ := a
          rw [hfold] at he
          cases he
      · intro hnone
        refine ⟨"no matching version found in " ++ p.name ++ " constraint " ++ constraintRaw, ?_⟩
        have hfold : p.versions.foldl (maxStep c) none = none :=
          (maxStep_fold_none c p.versions none).mpr ⟨rfl, hnone⟩
        simp [PackageInfo.MaxVersion, hc, hfold]
    · intro info hok
      simp only [PackageInfo.MaxVersion, hc] at hok
      cases hfold : p.versions.foldl (maxStep c) none with
      | none =>
        rw [hfold] at hok
        cases hok
      | some a =>
        obtain ⟨ver, info0⟩ := a
        rw [hfold] at hok
        simp only [Except.ok.injEq] at hok
        subst hok
        obtain ⟨hprov, _, hmax⟩ := maxStep_fold_some c p.versions none ver info0 hfold
        rcases hprov with hp1 | hp1
        · cases hp1
        · obtain ⟨vr, hvr, hparse, hchk⟩ := hp1
          exact ⟨vr, ver, hvr, hparse, hchk, hmax⟩

theorem C6_MaxVersion_correct_witness :
    ∃ vr ver, (vr, depInfoA) ∈ depPackage.versions ∧ semverNewVersion vr = some ver ∧
      Constraints.check ⟨CompareOp.clt, ⟨2, 0, 0⟩⟩ ver = true ∧
      ∀ pr ∈ depPackage.versions, ∀ w, semverNewVersion pr.1 = some w →
        Constraints.check ⟨CompareOp.clt, ⟨2, 0, 0⟩⟩ w = true → Semver.lt ver w = false :=
  ((C6_MaxVersion_correct depPackage "<2.0.0").2 ⟨CompareOp.clt, ⟨2, 0, 0⟩⟩ (by decide)).2
    depInfoA (by decide)

/-! ## C5 — constraint-containment dedup -/

/-- The dedup scenario, first edge: `dep` under `<2.0.0` resolves to 1.5.0. -/
def treeOne : Version :=
  VersionInfo.GatherDependencies fetchFix 3 (rootInfo [("dep", "<2.0.0")]) false
    (NewVersion (rootInfo [("dep", "<2.0.0")]) 0)

/-- Second edge: a disjoint constraint `>=2.0.0` adds 2.3.0. -/
def treeTwo : Version :=
  VersionInfo.GatherDependencies fetchFix 3 (rootInfo [("dep", ">=2.0.0")]) false treeOne

/-- Third edge: `>=1.0.0` is already satisfied by 1.5.0 and adds nothing. -/
def treeThree : Version :=
  VersionInfo.GatherDependencies fetchFix 3 (rootInfo [("dep", ">=1.0.0")]) false treeTwo

/-- C5: processing one dependency edge whose fetch, constraint parse,
version selection and platform test all succeed: when the name is known and
some recorded version matches the constraint the aggregate is returned
untouched; when no recorded version matches, the selected version is
appended and the child is merged and recursed into; when the name is new,
the list is created and the package counter bumped before the merge and
recursion.  The fixture run shows two disjoint constraints creating two
entries and a third, already-satisfied constraint adding none. -/
theorem C5_constraint_dedup (fetch : String → Except String PackageInfo)
    (fuel : Nat) (parent : Version) (name constraintRaw : String)
    (pkg : PackageInfo) (constraint : Constraints) (childVersion : VersionInfo)
    (hfetch : fetch name = Except.ok pkg)
    (hcon : semverNewConstraint constraintRaw = some constraint)
    (hmax : pkg.MaxVersion constraintRaw = Except.ok childVersion)
    (hplat : childVersion.MatchPlatform "linux" "x64" = true) :
    (∀ versions, lookupMap parent.dependencies name = some versions →
      HasMatchingVersion versions constraint = true →
      VersionInfo.GatherDependencies fetch (fuel + 1)
        { emptyVersionInfo with dependencies := [(name, constraintRaw)] } false parent =
        parent) ∧
    (∀ versions, lookupMap parent.dependencies name = some versions →
      HasMatchingVersion versions constraint = false →
      VersionInfo.GatherDependencies fetch (fuel + 1)
        { emptyVersionInfo with dependencies := [(name, constraintRaw)] } false parent =
        VersionInfo.GatherDependencies fetch fuel childVersion false
          (gatherMerge
            { parent with
              dependencies :=
                updateMap parent.dependencies name (versions ++ [childVersion.version]) }
            childVersion)) ∧
    (lookupMap parent.dependencies name = none →
      VersionInfo.GatherDependencies fetch (fuel + 1)
        { emptyVersionInfo with dependencies := [(name, constraintRaw)] } false parent =
        VersionInfo.GatherDependencies fetch fuel childVersion false
          (gatherMerge
            { parent with
              dependencies := parent.dependencies ++ [(name, [childVersion.version])]
              stats := { parent.stats with packages := parent.stats.packages + 1 } }
            childVersion)) ∧
    treeOne.dependencies = [("dep", ["1.5.0"])] ∧
    treeTwo.dependencies = [("dep", ["1.5.0", "2.3.0"])] ∧
    treeThree.dependencies = [("dep", ["1.5.0", "2.3.0"])] := by
  have hstep : ∀ par : Version,
      VersionInfo.GatherDependencies fetch (fuel + 1)
        { emptyVersionInfo with dependencies := [(name, constraintRaw)] } false par =
        gatherOne
          (fun par2 child =>
            VersionInfo.GatherDependencies fetch fuel child false (gatherMerge par2 child))
          fetch par name constraintRaw := by
    intro par
    rfl
  refine ⟨?_, ?_, ?_, by decide, by decide, by decide⟩
  · intro versions hdep hmatch
    rw [hstep]
    simp [gatherOne, hfetch, hcon, hmax, hplat, hdep, hmatch]
  · intro versions hdep hmatch
    rw [hstep]
    simp [gatherOne, hfetch, hcon, hmax, hplat, hdep, hmatch]
  · intro hdep
    rw [hstep]
    simp [gatherOne, hfetch, hcon, hmax, hplat, hdep]

theorem C5_constraint_dedup_witness :
    VersionInfo.GatherDependencies fetchFix 1
        { emptyVersionInfo with dependencies := [("dep", ">=1.0.0")] } false treeOne =
      treeOne ∧
    treeOne.dependencies = [("dep", ["1.5.0"])] ∧
    treeTwo.dependencies = [("dep", ["1.5.0", "2.3.0"])] ∧
    treeThree.dependencies = [("dep", ["1.5.0", "2.3.0"])] := by
  have h := C5_constraint_dedup fetchFix 0 treeOne "dep" ">=1.0.0" depPackage
    ⟨CompareOp.cge, ⟨1, 0, 0⟩⟩ depInfoB (by decide) (by decide) (by decide) (by decide)
  exact ⟨h.1 ["1.5.0"] (by decide) (by decide), h.2.2.2.1, h.2.2.2.2.1, h.2.2.2.2.2⟩

/-! ## C7 — vulnerability correlation -/

theorem vulnerabilityMatches_iff (vulnerability : Vulnerability) (depVersions : List String) :
    vulnerabilityMatches vulnerability depVersions = true ↔
      ∃ dv ∈ depVersions, ∃ s, semverNewVersion dv = some s ∧
        ∃ expr ∈ vulnerability.semver.vulnerable, ∃ c, semverNewConstraint expr = some c ∧
          c.check s = true := by
  unfold vulnerabilityMatches
  rw [List.any_eq_true]
  constructor
  · rintro ⟨dv, hdv, hbody⟩
    cases hp : semverNewVersion dv with
    | none =>
      rw [hp] at hbody
      cases hbody
    | some sv =>
      rw [hp] at hbody
      dsimp only at hbody
      rw [List.any_eq_true] at hbody
      obtain ⟨expr, hexpr, hc⟩ := hbody
      cases hq : semverNewConstraint expr with
      | none =>
        rw [hq] at hc
        cases hc
      | some c =>
        rw [hq] at hc
        exact ⟨dv, hdv, sv, hp, expr, hexpr, c, hq, hc⟩
  · rintro ⟨dv, hdv, sv, hp, expr, hexpr, c, hq, hc⟩
    refine ⟨dv, hdv, ?_⟩
    rw [hp]
    dsimp only
    rw [List.any_eq_true]
    refine ⟨expr, hexpr, ?_⟩
    rw [hq]
    exact hc

/-- C7: given a successful vulnerability query, `GatherVulnerabilities`
succeeds, keeps exactly the vulnerabilities for which some installed
version (the root's own version when the names coincide, otherwise the
dependency's list) parses and satisfies at least one vulnerable range
expression, and buckets each kept vulnerability once under its severity;
malformed installed versions and range expressions are skipped, never
fatal.  Last conjuncts: range `<1.2.3` matches installed `1.0.0`, not
`1.3.0`, and a malformed installed version simply never matches. -/
theorem C7_vulnerability_correlation
    (vulnDb : List String → Except String (List Vulnerability))
    (v : Version) (allVulnerabilities : List Vulnerability)
    (hdb : vulnDb (v.info.name :: v.dependencies.map Prod.fst) =
      Except.ok allVulnerabilities) :
    ∃ v2, v.GatherVulnerabilities vulnDb = Except.ok v2 ∧
      (∀ vuln, vuln ∈ v2.vulnerabilities ↔
        (vuln ∈ allVulnerabilities ∧
          ∃ dv ∈ installedVersions v vuln, ∃ s, semverNewVersion dv = some s ∧
            ∃ expr ∈ vuln.semver.vulnerable, ∃ c, semverNewConstraint expr = some c ∧
              c.check s = true)) ∧
      v2.stats.vulnerabilityStats.lowCount =
        (v2.vulnerabilities.countP (fun vv => vv.severity = "low") : Int) ∧
      v2.stats.vulnerabilityStats.mediumCount =
        (v2.vulnerabilities.countP (fun vv => vv.severity = "medium") : Int) ∧
      v2.stats.vulnerabilityStats.highCount =
        (v2.vulnerabilities.countP (fun vv => vv.severity = "high") : Int) ∧
      v2.stats.vulnerabilityStats.criticalCount =
        (v2.vulnerabilities.countP (fun vv => vv.severity = "critical") : Int) ∧
      vulnerabilityMatches vulnFix ["1.0.0"] = true ∧
      vulnerabilityMatches vulnFix ["1.3.0"] = false ∧
      vulnerabilityMatches vulnFix ["not-a-version"] = false := by
  refine ⟨{ v with
      vulnerabilities := allVulnerabilities.filter fun vulnerability =>
        vulnerabilityMatches vulnerability (installedVersions v vulnerability)
      stats := { v.stats with
        vulnerabilityStats := GetVulnerabilityStats
          (allVulnerabilities.filter fun vulnerability =>
            vulnerabilityMatches vulnerability (installedVersions v vulnerability)) } },
    ?_, ?_, ?_, ?_, ?_, ?_, by decide, by decide, by decide⟩
  · simp only [Version.GatherVulnerabilities, hdb]
  · intro vuln
    dsimp only
    rw [List.mem_filter, vulnerabilityMatches_iff]
  all_goals
    dsimp only
    rw [GetVulnerabilityStats, vulnStats_foldl]
    dsimp only
    rw [Int.zero_add]

theorem C7_vulnerability_correlation_witness :
    ∃ v2, treeOne.GatherVulnerabilities (fun _ => Except.ok [vulnFix]) = Except.ok v2 ∧
      (∀ vuln, vuln ∈ v2.vulnerabilities ↔
        (vuln ∈ [vulnFix] ∧
          ∃ dv ∈ installedVersions treeOne vuln, ∃ s, semverNewVersion dv = some s ∧
            ∃ expr ∈ vuln.semver.vulnerable, ∃ c, semverNewConstraint expr = some c ∧
              c.check s = true)) ∧
      v2.stats.vulnerabilityStats.lowCount =
        (v2.vulnerabilities.countP (fun vv => vv.severity = "low") : Int) ∧
      v2.stats.vulnerabilityStats.mediumCount =
        (v2.vulnerabilities.countP (fun vv => vv.severity = "medium") : Int) ∧
      v2.stats.vulnerabilityStats.highCount =
        (v2.vulnerabilities.countP (fun vv => vv.severity = "high") : Int) ∧
      v2.stats.vulnerabilityStats.criticalCount =
        (v2.vulnerabilities.countP (fun vv => vv.severity = "critical") : Int) ∧
      vulnerabilityMatches vulnFix ["1.0.0"] = true ∧
      vulnerabilityMatches vulnFix ["1.3.0"] = false ∧
      vulnerabilityMatches vulnFix ["not-a-version"] = false :=
  C7_vulnerability_correlation (fun _ => Except.ok [vulnFix]) treeOne [vulnFix] rfl

/-! ## C2 — error containment -/

theorem gatherOne_proj (recur : Version → VersionInfo → Version)
    (fetch : String → Except String PackageInfo) (parent : Version)
    (name constraintRaw : String)
    (hrec : ∀ par child, (recur par child).info = par.info ∧ (recur par child).time = par.time) :
    (gatherOne recur fetch parent name constraintRaw).info = parent.info ∧
    (gatherOne recur fetch parent name constraintRaw).time = parent.time := by
  unfold gatherOne
  cases fetch name with
  | error e => exact ⟨rfl, rfl⟩
  | ok pkg =>
    dsimp only
    cases semverNewConstraint constraintRaw with
    | none => exact ⟨rfl, rfl⟩
    | some c =>
      dsimp only
      cases pkg.MaxVersion constraintRaw with
      | error e => exact ⟨rfl, rfl⟩
      | ok childVersion =>
        dsimp only
        by_cases hplat : (!childVersion.MatchPlatform "linux" "x64") = true
        · rw [if_pos hplat]
          exact ⟨rfl, rfl⟩
        · rw [if_neg hplat]
          cases lookupMap parent.dependencies name with
          | some versions =>
            dsimp only
            by_cases hm : (!HasMatchingVersion versions c) = true
            · rw [if_pos hm]
              exact hrec _ _
            · rw [if_neg hm]
              exact ⟨rfl, rfl⟩
          | none =>
            dsimp only
            exact hrec _ _

theorem gatherFold_proj (fetch : String → Except String PackageInfo) (fuel : Nat)
    (deps : List (String × String))
    (ihf : ∀ (p : VersionInfo) (parent : Version),
      (VersionInfo.GatherDependencies fetch fuel p false parent).info = parent.info ∧
      (VersionInfo.GatherDependencies fetch fuel p false parent).time = parent.time) :
    ∀ parent : Version,
      ((deps.foldl
        (fun par nc =>
          gatherOne
            (fun par2 child =>
              VersionInfo.GatherDependencies fetch fuel child false (gatherMerge par2 child))
            fetch par nc.1 nc.2)
        parent).info = parent.info ∧
      (deps.foldl
        (fun par nc =>
          gatherOne
            (fun par2 child =>
              VersionInfo.GatherDependencies fetch fuel child false (gatherMerge par2 child))
            fetch par nc.1 nc.2)
        parent).time = parent.time) := by
  induction deps with
  | nil => intro parent; exact ⟨rfl, rfl⟩
  | cons nc rest ihl =>
    intro parent
    rw [List.foldl_cons]
    have hstep := gatherOne_proj
      (fun par2 child =>
        VersionInfo.GatherDependencies fetch fuel child false (gatherMerge par2 child))
      fetch parent nc.1 nc.2
      (fun par child => ihf child (gatherMerge par child))
    have hrest := ihl
      (gatherOne
        (fun par2 child =>
          VersionInfo.GatherDependencies fetch fuel child false (gatherMerge par2 child))
        fetch parent nc.1 nc.2)
    exact ⟨hrest.1.trans hstep.1, hrest.2.trans hstep.2⟩

/-- `GatherDependencies` never touches the root `info` and `time` fields of
the aggregate it fills. -/
theorem gather_proj (fetch : String → Except String PackageInfo) :
    ∀ (fuel : Nat) (p : VersionInfo) (alsoDev : Bool) (parent : Version),
      (VersionInfo.GatherDependencies fetch fuel p alsoDev parent).info = parent.info ∧
      (VersionInfo.GatherDependencies fetch fuel p alsoDev parent).time = parent.time := by
  intro fuel
  induction fuel with
  | zero => intro p alsoDev parent; exact ⟨rfl, rfl⟩
  | succ fuel ih =>
    intro p alsoDev parent
    exact gatherFold_proj fetch fuel
      (p.dependencies ++ if alsoDev then p.devDependencies else [])
      (fun p2 parent2 => ih p2 false parent2) parent

/-- C2 (amended): per-dependency failures — fetch error, unparseable
constraint, no satisfying version — only append one message to the
aggregate's error list (first three conjuncts) and the remaining siblings
are processed from that same aggregate (fourth conjunct, shown for a fetch
failure at the head of the list); a root-resolution failure is fatal with
that error (fifth conjunct); and for a resolvable root the whole call fails
exactly when the vulnerability-table query for the resolved tree's package
names fails (last conjunct) — the vulnerability lookup is a second fatal
failure source beside the root version, which the original claim missed. -/
theorem C2_error_containment (fetch : String → Except String PackageInfo)
    (vulnDb : List String → Except String (List Vulnerability)) :
    (∀ recur parent name constraintRaw e, fetch name = Except.error e →
      gatherOne recur fetch parent name constraintRaw =
        { parent with errors := parent.errors ++ ["could not get " ++ name ++ ": " ++ e] }) ∧
    (∀ recur parent name constraintRaw pkg, fetch name = Except.ok pkg →
      semverNewConstraint constraintRaw = none →
      gatherOne recur fetch parent name constraintRaw =
        { parent with errors := parent.errors ++
            ["invalid constraint for " ++ name ++ " constraint " ++ constraintRaw] }) ∧
    (∀ recur parent name constraintRaw pkg c e, fetch name = Except.ok pkg →
      semverNewConstraint constraintRaw = some c →
      pkg.MaxVersion constraintRaw = Except.error e →
      gatherOne recur fetch parent name constraintRaw =
        { parent with errors := parent.errors ++
            ["no matching version for " ++ name ++ " constraint " ++ constraintRaw ++ ": " ++ e] }) ∧
    (∀ (fuel : Nat) (parent : Version) (name constraintRaw : String) e
        (rest : List (String × String)), fetch name = Except.error e →
      VersionInfo.GatherDependencies fetch (fuel + 1)
        { emptyVersionInfo with dependencies := (name, constraintRaw) :: rest } false parent =
        VersionInfo.GatherDependencies fetch (fuel + 1)
          { emptyVersionInfo with dependencies := rest } false
          { parent with errors := parent.errors ++ ["could not get " ++ name ++ ": " ++ e] }) ∧
    (∀ (fuel : Nat) (p : PackageInfo) (versionRaw : String) e,
      p.resolveRootVersion versionRaw = Except.error e →
      PackageInfo.GatherDependencies fetch vulnDb fuel p versionRaw = Except.error e) ∧
    (∀ (fuel : Nat) (p : PackageInfo) (versionRaw : String) versionInfo,
      p.resolveRootVersion versionRaw = Except.ok versionInfo →
      ((∃ e, PackageInfo.GatherDependencies fetch vulnDb fuel p versionRaw = Except.error e) ↔
        (∃ e, vulnDb (versionInfo.name ::
          (VersionInfo.GatherDependencies fetch fuel versionInfo false
            (NewVersion versionInfo
              ((lookupMap p.time versionInfo.version).getD 0))).dependencies.map Prod.fst) =
          Except.error e))) := by
  have hfail : ∀ recur parent name constraintRaw e, fetch name = Except.error e →
      gatherOne recur fetch parent name constraintRaw =
        { parent with errors := parent.errors ++ ["could not get " ++ name ++ ": " ++ e] } := by
    intro recur parent name constraintRaw e hfetch
    simp [gatherOne, hfetch]
  refine ⟨hfail, ?_, ?_, ?_, ?_, ?_⟩
  · intro recur parent name constraintRaw pkg hfetch hcon
    simp [gatherOne, hfetch, hcon]
  · intro recur parent name constraintRaw pkg c e hfetch hcon hmax
    simp [gatherOne, hfetch, hcon, hmax]
  · intro fuel parent name constraintRaw e rest hfetch
    simp only [VersionInfo.GatherDependencies, Bool.false_eq_true, if_false, List.append_nil]
    rw [List.foldl_cons]
    rw [hfail _ parent name constraintRaw e hfetch]
  · intro fuel p versionRaw e hroot
    simp [PackageInfo.GatherDependencies, hroot]
  · intro fuel p versionRaw versionInfo hroot
    simp only [PackageInfo.GatherDependencies, hroot]
    have hinfo := (gather_proj fetch fuel versionInfo false
      (NewVersion versionInfo ((lookupMap p.time versionInfo.version).getD 0))).1
    have hnv : (NewVersion versionInfo
        ((lookupMap p.time versionInfo.version).getD 0)).info = versionInfo := rfl
    constructor
    · rintro ⟨e, he⟩
      cases hv : (VersionInfo.GatherDependencies fetch fuel versionInfo false
          (NewVersion versionInfo
            ((lookupMap p.time versionInfo.version).getD 0))).GatherVulnerabilities vulnDb with
      | error e2 =>
        unfold Version.GatherVulnerabilities at hv
        rw [hinfo, hnv] at hv
        cases hdbv : vulnDb (versionInfo.name ::
            (VersionInfo.GatherDependencies fetch fuel versionInfo false
              (NewVersion versionInfo
                ((lookupMap p.time versionInfo.version).getD 0))).dependencies.map Prod.fst) with
        | error e3 => exact ⟨e3, rfl⟩
        | ok l =>
          rw [hdbv] at hv
          dsimp only at hv
          cases hv
      | ok v2 =>
        rw [hv] at he
        dsimp only at he
        cases he
    · rintro ⟨e, hdbv⟩
      cases hv : (VersionInfo.GatherDependencies fetch fuel versionInfo false
          (NewVersion versionInfo
            ((lookupMap p.time versionInfo.version).getD 0))).GatherVulnerabilities vulnDb with
      | error e2 => exact ⟨_, rfl⟩
      | ok v2 =>
        unfold Version.GatherVulnerabilities at hv
        rw [hinfo, hnv] at hv
        rw [hdbv] at hv
        dsimp only at hv
        cases hv

/-- The original C2 is false on the code: with a resolvable root but a
failing vulnerability-table query, the whole call errors. -/
theorem C2_vulnDb_counterexample :
    (PackageInfo.GatherDependencies fetchFix failingVulnDb 5 depPackage "1.5.0").isOk = false ∧
    (lookupMap depPackage.versions "1.5.0").isSome = true := by
  decide

theorem C2_error_containment_witness :
    gatherOne (fun par _ => par) fetchFix treeOne "missing" ">=1.0.0" =
      { treeOne with errors := treeOne.errors ++ ["could not get missing: not found"] } ∧
    PackageInfo.GatherDependencies fetchFix emptyVulnDb 5 depPackage "9.9.9" =
      Except.error "could not find version 9.9.9 in dep" ∧
    ((∃ e, PackageInfo.GatherDependencies fetchFix failingVulnDb 5 depPackage "1.5.0" =
        Except.error e) ↔
      (∃ e, failingVulnDb ("dep" ::
        (VersionInfo.GatherDependencies fetchFix 5 depInfoA false
          (NewVersion depInfoA
            ((lookupMap depPackage.time depInfoA.version).getD 0))).dependencies.map Prod.fst) =
        Except.error e)) := by
  refine ⟨?_, ?_, ?_⟩
  · exact (C2_error_containment fetchFix emptyVulnDb).1 (fun par _ => par) treeOne
      "missing" ">=1.0.0" "not found" (by decide)
  · exact (C2_error_containment fetchFix emptyVulnDb).2.2.2.2.1 5 depPackage "9.9.9"
      "could not find version 9.9.9 in dep" (by decide)
  · exact (C2_error_containment fetchFix failingVulnDb).2.2.2.2.2 5 depPackage "1.5.0"
      depInfoA (by decide)

/-! ## C4 — aggregate statistics invariant -/

/-- Total number of version strings across all dependency lists. -/
def sumVersions : List (String × List String) → Nat
  | [] => 0
  | pr :: rest => pr.2.length + sumVersions rest

theorem sumVersions_append_single (m : List (String × List String)) (k : String)
    (vs : List String) : sumVersions (m ++ [(k, vs)]) = sumVersions m + vs.length := by
  induction m with
  | nil => simp [sumVersions]
  | cons pr rest ih => simp [sumVersions, ih]; omega

theorem sumVersions_updateMap (m : List (String × List String)) (k : String)
    (vs w : List String) (h : lookupMap m k = some vs) :
    sumVersions (updateMap m k w) + vs.length = sumVersions m + w.length := by
  induction m with
  | nil => simp [lookupMap] at h
  | cons pr rest ih =>
    obtain ⟨k2, v2⟩ := pr
    by_cases hk : k2 = k
    · subst hk
      simp only [lookupMap, eq_self_iff_true, if_true, Option.some.injEq] at h
      subst h
      simp only [updateMap, eq_self_iff_true, if_true, sumVersions]
      omega
    · simp only [lookupMap, if_neg hk] at h
      simp only [updateMap, if_neg hk, sumVersions]
      have := ih h
      omega

/-- The resolution invariant of C4: unique dependency names, non-empty
version lists, and the two counters tracking the map. -/
structure VersionInv (v : Version) : Prop where
  nodupKeys : (v.dependencies.map Prod.fst).Nodup
  nonemptyLists : ∀ pr ∈ v.dependencies, pr.2 ≠ []
  pkgCount : v.stats.packages = 1 + (v.dependencies.length : Int)
  verCount : v.stats.versions = 1 + (sumVersions v.dependencies : Int)

theorem newVersion_inv (vi : VersionInfo) (t : Int) : VersionInv (NewVersion vi t) := by
  refine ⟨?_, ?_, ?_, ?_⟩ <;> simp [NewVersion, sumVersions]

theorem gatherOne_inv (recur : Version → VersionInfo → Version)
    (fetch : String → Except String PackageInfo) (parent : Version)
    (name constraintRaw : String)
    (hrec : ∀ par child, VersionInv (gatherMerge par child) → VersionInv (recur par child))
    (h : VersionInv parent) :
    VersionInv (gatherOne recur fetch parent name constraintRaw) := by
  unfold gatherOne
  cases fetch name with
  | error e => exact ⟨h.nodupKeys, h.nonemptyLists, h.pkgCount, h.verCount⟩
  | ok pkg =>
    dsimp only
    cases semverNewConstraint constraintRaw with
    | none => exact ⟨h.nodupKeys, h.nonemptyLists, h.pkgCount, h.verCount⟩
    | some c =>
      dsimp only
      cases pkg.MaxVersion constraintRaw with
      | error e => exact ⟨h.nodupKeys, h.nonemptyLists, h.pkgCount, h.verCount⟩
      | ok childVersion =>
        dsimp only
        by_cases hplat : (!childVersion.MatchPlatform "linux" "x64") = true
        · rw [if_pos hplat]
          exact h
        · rw [if_neg hplat]
          cases hdep : lookupMap parent.dependencies name with
          | some versions =>
            dsimp only
            by_cases hm : (!HasMatchingVersion versions c) = true
            · rw [if_pos hm]
              apply hrec
              have hkeys := updateMap_keys_of_mem parent.dependencies name
                (versions ++ [childVersion.version]) versions hdep
              have hlen : (updateMap parent.dependencies name
                  (versions ++ [childVersion.version])).length =
                  parent.dependencies.length := by
                have h1 := congrArg List.length hkeys
                simpa using h1
              have hsum := sumVersions_updateMap parent.dependencies name versions
                (versions ++ [childVersion.version]) hdep
              refine ⟨?_, ?_, ?_, ?_⟩
              · dsimp only [gatherMerge]
                rw [hkeys]
                exact h.nodupKeys
              · dsimp only [gatherMerge]
                intro pr hpr
                rcases updateMap_mem parent.dependencies name
                    (versions ++ [childVersion.version]) pr hpr with h1 | h1
                · rw [h1.2]
                  simp
                · exact h.nonemptyLists pr h1
              · dsimp only [gatherMerge]
                rw [hlen]
                exact h.pkgCount
              · dsimp only [gatherMerge]
                have hv := h.verCount
                simp only [List.length_append, List.length_singleton] at hsum
                have : sumVersions (updateMap parent.dependencies name
                    (versions ++ [childVersion.version])) =
                    sumVersions parent.dependencies + 1 := by omega
                rw [this]
                push_cast
                omega
            · rw [if_neg hm]
              exact h
          | none =>
            dsimp only
            apply hrec
            have hnotin : name ∉ parent.dependencies.map Prod.fst :=
              (lookupMap_eq_none parent.dependencies name).mp hdep
            refine ⟨?_, ?_, ?_, ?_⟩
            · dsimp only [gatherMerge]
              rw [List.map_append]
              simp only [List.map_cons, List.map_nil]
              rw [List.nodup_append]
              exact ⟨h.nodupKeys, List.nodup_singleton _,
                fun a ha hb => by
                  simp only [List.mem_singleton] at hb
                  rw [hb] at ha
                  exact hnotin ha⟩
            · dsimp only [gatherMerge]
              intro pr hpr
              rcases List.mem_append.mp hpr with h1 | h1
              · exact h.nonemptyLists pr h1
              · simp only [List.mem_singleton] at h1
                rw [h1]
                simp
            · dsimp only [gatherMerge]
              rw [List.length_append]
              simp only [List.length_singleton]
              have := h.pkgCount
              push_cast
              omega
            · dsimp only [gatherMerge]
              rw [sumVersions_append_single]
              simp only [List.length_singleton]
              have := h.verCount
              push_cast
              omega

theorem gatherFold_inv (fetch : String → Except String PackageInfo) (fuel : Nat)
    (deps : List (String × String))
    (ihf : ∀ (p : VersionInfo) (parent : Version), VersionInv parent →
      VersionInv (VersionInfo.GatherDependencies fetch fuel p false parent)) :
    ∀ parent : Version, VersionInv parent →
      VersionInv (deps.foldl
        (fun par nc =>
          gatherOne
            (fun par2 child =>
              VersionInfo.GatherDependencies fetch fuel child false (gatherMerge par2 child))
            fetch par nc.1 nc.2)
        parent) := by
  induction deps with
  | nil => intro parent h; exact h
  | cons nc rest ihl =>
    intro parent h
    rw [List.foldl_cons]
    apply ihl
    exact gatherOne_inv _ fetch parent nc.1 nc.2
      (fun par child hmerge => ihf child (gatherMerge par child) hmerge) h

/-- `GatherDependencies` preserves the resolution invariant at any fuel. -/
theorem gather_inv (fetch : String → Except String PackageInfo) :
    ∀ (fuel : Nat) (p : VersionInfo) (alsoDev : Bool) (parent : Version),
      VersionInv parent →
      VersionInv (VersionInfo.GatherDependencies fetch fuel p alsoDev parent) := by
  intro fuel
  induction fuel with
  | zero => intro p alsoDev parent h; exact h
  | succ fuel ih =>
    intro p alsoDev parent h
    exact gatherFold_inv fetch fuel
      (p.dependencies ++ if alsoDev then p.devDependencies else [])
      (fun p2 parent2 h2 => ih p2 false parent2 h2) parent h

/-- Any sequence of `GatherDependencies` merges applied after `NewVersion`. -/
def applyGathers (fetch : String → Except String PackageInfo)
    (specs : List (Nat × VersionInfo × Bool)) (v : Version) : Version :=
  specs.foldl
    (fun v2 spec => VersionInfo.GatherDependencies fetch spec.1 spec.2.1 spec.2.2 v2) v

/-- C4: every `Version` built by `NewVersion` followed by any sequence of
`GatherDependencies` merges has pairwise-distinct dependency names, only
non-empty version lists, `stats.packages = 1 +` number of dependency names
and `stats.versions = 1 +` total number of recorded version strings. -/
theorem C4_stats_invariant (fetch : String → Except String PackageInfo)
    (specs : List (Nat × VersionInfo × Bool)) (vi : VersionInfo) (t : Int) :
    ((applyGathers fetch specs (NewVersion vi t)).dependencies.map Prod.fst).Nodup ∧
    (∀ pr ∈ (applyGathers fetch specs (NewVersion vi t)).dependencies, pr.2 ≠ []) ∧
    (applyGathers fetch specs (NewVersion vi t)).stats.packages =
      1 + ((applyGathers fetch specs (NewVersion vi t)).dependencies.length : Int) ∧
    (applyGathers fetch specs (NewVersion vi t)).stats.versions =
      1 + (sumVersions (applyGathers fetch specs (NewVersion vi t)).dependencies : Int) := by
  suffices hinv : VersionInv (applyGathers fetch specs (NewVersion vi t)) from
    ⟨hinv.nodupKeys, hinv.nonemptyLists, hinv.pkgCount, hinv.verCount⟩
  unfold applyGathers
  have hgen : ∀ (l : List (Nat × VersionInfo × Bool)) (v : Version), VersionInv v →
      VersionInv (l.foldl
        (fun v2 spec => VersionInfo.GatherDependencies fetch spec.1 spec.2.1 spec.2.2 v2) v) := by
    intro l
    induction l with
    | nil => intro v h; exact h
    | cons spec rest ih =>
      intro v h
      rw [List.foldl_cons]
      exact ih _ (gather_inv fetch spec.1 spec.2.1 spec.2.2 v h)
  exact hgen specs _ (newVersion_inv vi t)

end Independ
